import Mathlib

/-!
Verification of the poll engine of src/src/controller/poll.rs.

Strings from the Rust code are modelled as lists of characters (`Str`),
machine integers (`u32`, `usize`) as `Nat`, fallible or panicking code as
`Option`/`Except`.  External crates (`toml`, `bincode`, the URL
form decoder, the `sled` store) are abstracted: the decoder theorems take
the already URL-decoded key/value view of a submission, the definition
parser takes the TOML deserializer as a function argument, and the store
is a key-indexed map.
-/

/-- Character-list model of Rust `String` / `&str`. -/
abbrev Str := List Char

/-- Rust enum `PollQuestion` (poll.rs, lines 27-37). -/
inductive PollQuestion where
  | Text : (question : Str) → PollQuestion
  | Choice : (question : Str) → (options : List Str) → (multiple : Bool) → PollQuestion
deriving DecidableEq

/-- Rust struct `Poll` (poll.rs, lines 39-43): a title and ordered questions. -/
structure Poll where
  title : Str
  entries : List PollQuestion
deriving DecidableEq

/-- Rust enum `PollResponse` (poll.rs, lines 45-51). -/
inductive PollResponse where
  | Text : Str → PollResponse
  | SingleChoice : Nat → PollResponse
  | MultipleChoice : List Nat → PollResponse
deriving DecidableEq

/-- Rust tuple struct `PollResult(Vec<PollResponse>)` (poll.rs, line 56). -/
structure PollResult where
  responses : List PollResponse
deriving DecidableEq

/-! Decimal rendering of naturals, modelling Rust `format!` interpolation of
integer values (`q{i}`, `q{i}_{o}`, the route identifiers).  A fuel-indexed
structural recursion is used so that the kernel can evaluate it. -/

/-- Decimal digits of `n`, most significant first; `fuel ≥ n` makes it exact. -/
def natDigitsF : Nat → Nat → List Nat
  | 0, n => [n % 10]
  | fuel + 1, n => if n < 10 then [n] else natDigitsF fuel (n / 10) ++ [n % 10]

/-- Decimal digits of `n`, most significant first. -/
def natDigits (n : Nat) : List Nat := natDigitsF n n

/-- Digit value to ASCII digit character. -/
def decChar (d : Nat) : Char := Char.ofNat (48 + d)

/-- Decimal string of a natural number, as Rust `format!` writes integers. -/
def natStr (n : Nat) : Str := (natDigits n).map decChar

/-- Value of a digit list, most significant first. -/
def digitsVal (l : List Nat) : Nat := l.foldl (fun a d => a * 10 + d) 0

theorem digitsVal_append_single (l : List Nat) (d : Nat) :
    digitsVal (l ++ [d]) = digitsVal l * 10 + d := by
  simp [digitsVal, List.foldl_append]

theorem digitsVal_natDigitsF : ∀ fuel n, n ≤ fuel → digitsVal (natDigitsF fuel n) = n := by
  intro fuel
  induction fuel with
  | zero => intro n h; interval_cases n; simp [natDigitsF, digitsVal]
  | succ fuel ih =>
    intro n h
    by_cases h10 : n < 10
    · simp [natDigitsF, h10, digitsVal]
    · have hdiv : n / 10 < n := Nat.div_lt_self (by omega) (by omega)
      have : digitsVal (natDigitsF fuel (n / 10)) = n / 10 := ih (n / 10) (by omega)
      simp [natDigitsF, h10, digitsVal_append_single, this]
      omega

theorem digitsVal_natDigits (n : Nat) : digitsVal (natDigits n) = n :=
  digitsVal_natDigitsF n n (Nat.le_refl n)

theorem natDigits_inj {m n : Nat} (h : natDigits m = natDigits n) : m = n := by
  have := digitsVal_natDigits m
  rw [h, digitsVal_natDigits] at this
  omega

theorem natDigitsF_lt10 : ∀ fuel n, ∀ d ∈ natDigitsF fuel n, d < 10 := by
  intro fuel
  induction fuel with
  | zero => intro n d hd; simp [natDigitsF] at hd; omega
  | succ fuel ih =>
    intro n d hd
    by_cases h10 : n < 10
    · simp [natDigitsF, h10] at hd; omega
    · simp [natDigitsF, h10] at hd
      rcases hd with hd | hd
      · exact ih _ _ hd
      · omega

theorem natDigits_lt10 (n : Nat) : ∀ d ∈ natDigits n, d < 10 :=
  natDigitsF_lt10 n n

theorem decChar_inj10 : ∀ d < 10, ∀ e < 10, decChar d = decChar e → d = e := by decide

theorem map_decChar_inj : ∀ l1 l2 : List Nat, (∀ d ∈ l1, d < 10) → (∀ d ∈ l2, d < 10) →
    l1.map decChar = l2.map decChar → l1 = l2 := by
  intro l1
  induction l1 with
  | nil => intro l2 _ _ h; cases l2 <;> simp_all
  | cons a l1 ih =>
    intro l2 h1 h2 h
    cases l2 with
    | nil => simp at h
    | cons b l2 =>
      simp only [List.map_cons, List.cons.injEq] at h
      have ha : a = b :=
        decChar_inj10 a (h1 a (by simp)) b (h2 b (by simp)) h.1
      have : l1 = l2 := ih l2 (fun d hd => h1 d (by simp [hd])) (fun d hd => h2 d (by simp [hd])) h.2
      rw [ha, this]

theorem natStr_inj {m n : Nat} (h : natStr m = natStr n) : m = n :=
  natDigits_inj (map_decChar_inj _ _ (natDigits_lt10 m) (natDigits_lt10 n) h)

theorem decChar_ne_underscore : ∀ d < 10, decChar d ≠ '_' := by decide

theorem underscore_not_mem_natStr (n : Nat) : '_' ∉ natStr n := by
  intro hmem
  rcases List.mem_map.mp hmem with ⟨d, hd, hdeq⟩
  exact decChar_ne_underscore d (natDigits_lt10 n d hd) hdeq

/-- Form field name `q{i}` used by the renderer and decoder (poll.rs). -/
def qKey (i : Nat) : Str := 'q' :: natStr i

/-- Form field name `q{i}_{o}` for option `o` of multiple-choice question `i`. -/
def qKeyO (i o : Nat) : Str := 'q' :: natStr i ++ '_' :: natStr o

theorem qKey_inj {i j : Nat} (h : qKey i = qKey j) : i = j := by
  simp only [qKey, List.cons.injEq] at h
  exact natStr_inj h.2

theorem qKey_ne_qKeyO (m i o : Nat) : qKey m ≠ qKeyO i o := by
  intro h
  simp only [qKey, qKeyO, List.cons_append, List.cons.injEq] at h
  have : '_' ∈ natStr m := by
    rw [h.2]
    exact List.mem_append_right _ (by simp)
  exact underscore_not_mem_natStr m this

/-! The response decoder `PollFormQuery::parse` (poll.rs, lines 59-103).
The URL decoding performed by `form_urlencoded::parse` and the collection
into a `HashMap` (later duplicate keys overwrite earlier ones) are external;
the decoder is modelled over the resulting key lookup function. -/

/-- The `HashMap` built by `collect()` from decoded key/value pairs: the
last pair with a given key wins. -/
def collectMap : List (Str × Str) → Str → Option Str
  | [], _ => none
  | p :: rest, k =>
    match collectMap rest k with
    | some v => some v
    | none => if k = p.1 then some p.2 else none

/-- Rust `options.iter().position(|o| o == &selected)`: index of the first
list element equal to `v`. -/
def position : List Str → Str → Option Nat
  | [], _ => none
  | o :: rest, v => if o = v then some 0 else (position rest v).map (fun x => x + 1)

/-- One iteration of the decoding loop of `PollFormQuery::parse` for the
question at index `i` (poll.rs, lines 70-100). -/
def parseEntry (results : Str → Option Str) (i : Nat) : PollQuestion → PollResponse
  | .Text _ => .Text ((results (qKey i)).getD [])
  | .Choice _ options multiple =>
    if multiple then
      .MultipleChoice ((List.range options.length).filter (fun o => (results (qKeyO i o)).isSome))
    else
      .SingleChoice ((position options ((results (qKey i)).getD [])).getD 0)

/-- The decoding loop of `PollFormQuery::parse`, starting at question index `i`. -/
def parseEntries (results : Str → Option Str) : List PollQuestion → Nat → List PollResponse
  | [], _ => []
  | e :: rest, i => parseEntry results i e :: parseEntries results rest (i + 1)

/-- `PollFormQuery::parse` (poll.rs, lines 59-103): decode a submission,
given as its key/value lookup, against a poll.  Always returns `Ok`. -/
def PollFormQuery.parse (poll : Poll) (results : Str → Option Str) : Except Str PollResult :=
  .ok ⟨parseEntries results poll.entries 0⟩

theorem parseEntries_length (results : Str → Option Str) :
    ∀ (entries : List PollQuestion) (i : Nat),
      (parseEntries results entries i).length = entries.length := by
  intro entries
  induction entries with
  | nil => intro i; rfl
  | cons e rest ih => intro i; simp [parseEntries, ih]

theorem parseEntries_getElem? (results : Str → Option Str) :
    ∀ (entries : List PollQuestion) (i j : Nat),
      (parseEntries results entries i)[j]? = (entries[j]?).map (fun e => parseEntry results (i + j) e) := by
  intro entries
  induction entries with
  | nil => intro i j; simp [parseEntries]
  | cons e rest ih =>
    intro i j
    cases j with
    | zero => simp [parseEntries]
    | succ j =>
      simp only [parseEntries, List.getElem?_cons_succ]
      rw [ih (i + 1) j]
      have : i + 1 + j = i + (j + 1) := by omega
      rw [this]

theorem collectMap_none_iff (k : Str) :
    ∀ l : List (Str × Str), collectMap l k = none ↔ ∀ p ∈ l, p.1 ≠ k := by
  intro l
  induction l with
  | nil => simp [collectMap]
  | cons p rest ih =>
    simp only [collectMap]
    cases hrest : collectMap rest k with
    | some v =>
      simp only []
      constructor
      · intro h; cases h
      · intro h
        have : ∀ q ∈ rest, q.1 ≠ k := fun q hq => h q (by simp [hq])
        rw [ih.mpr this] at hrest
        cases hrest
    | none =>
      by_cases hk : k = p.1
      · simp only [if_pos hk]
        constructor
        · intro h; cases h
        · intro h; exact absurd hk.symm (h p (by simp))
      · simp only [if_neg hk]
        constructor
        · intro _ q hq hqk
          rcases List.mem_cons.mp hq with hq | hq
          · exact hk (hq ▸ hqk).symm
          · exact (ih.mp hrest q hq) hqk
        · intro _; trivial

theorem collectMap_some_mem (k : Str) (v : Str) :
    ∀ l : List (Str × Str), collectMap l k = some v → (k, v) ∈ l := by
  intro l
  induction l with
  | nil => intro h; cases h
  | cons p rest ih =>
    intro h
    simp only [collectMap] at h
    cases hrest : collectMap rest k with
    | some w =>
      rw [hrest] at h
      cases h
      exact List.mem_cons_of_mem _ (ih hrest)
    | none =>
      rw [hrest] at h
      by_cases hk : k = p.1
      · rw [if_pos hk] at h
        cases h
        have : p = (k, p.2) := by
          cases p; simp_all
        rw [this] at *
        exact List.mem_cons_self _ _
      · rw [if_neg hk] at h
        cases h

theorem collectMap_unique (k : Str) (v : Str) :
    ∀ l : List (Str × Str), (k, v) ∈ l → (∀ w, (k, w) ∈ l → w = v) →
      collectMap l k = some v := by
  intro l
  induction l with
  | nil => intro h; cases h
  | cons p rest ih =>
    intro hmem huniq
    simp only [collectMap]
    cases hrest : collectMap rest k with
    | some w =>
      have : (k, w) ∈ rest := collectMap_some_mem k w rest hrest
      rw [huniq w (List.mem_cons_of_mem _ this)]
    | none =>
      have hnot : ∀ q ∈ rest, q.1 ≠ k := (collectMap_none_iff k rest).mp hrest
      have hp : p = (k, v) := by
        rcases List.mem_cons.mp hmem with h | h
        · exact h.symm
        · exact absurd rfl (hnot _ h)
      rw [hp]
      simp

/-! The default form state rendered by `Poll::html` when there is no prior
response (poll.rs, lines 146-219): text inputs empty, the first radio of a
single-choice question checked, no checkbox checked.  Submitting that form
produces one `q{i}` field per text question (empty) and one `q{i}` field per
single-choice question carrying the label of option 0. -/

/-- Form fields a browser submits for question `i` in its default state. -/
def entryDefault (i : Nat) : PollQuestion → List (Str × Str)
  | .Text _ => [(qKey i, [])]
  | .Choice _ options multiple =>
    if multiple then []
    else
      match options with
      | [] => []
      | o0 :: _ => [(qKey i, o0)]

/-- Default-submission fields for the questions from index `i` on. -/
def defaultSubmissionAux : List PollQuestion → Nat → List (Str × Str)
  | [], _ => []
  | e :: rest, i => entryDefault i e ++ defaultSubmissionAux rest (i + 1)

/-- The submission produced by submitting the renderer's default form. -/
def defaultSubmission (p : Poll) : List (Str × Str) := defaultSubmissionAux p.entries 0

/-- The response the specification expects for an untouched question. -/
def defaultResponse : PollQuestion → PollResponse
  | .Text _ => .Text []
  | .Choice _ _ multiple => if multiple then .MultipleChoice [] else .SingleChoice 0

theorem mem_defaultSubmissionAux (k v : Str) :
    ∀ (entries : List PollQuestion) (i : Nat),
      (k, v) ∈ defaultSubmissionAux entries i ↔
        ∃ j e, entries[j]? = some e ∧ (k, v) ∈ entryDefault (i + j) e := by
  intro entries
  induction entries with
  | nil => intro i; simp [defaultSubmissionAux]
  | cons e rest ih =>
    intro i
    simp only [defaultSubmissionAux, List.mem_append]
    constructor
    · intro h
      rcases h with h | h
      · exact ⟨0, e, by simp, by simpa using h⟩
      · rcases (ih (i + 1)).mp h with ⟨j, e2, hj, hm⟩
        refine ⟨j + 1, e2, by simpa using hj, ?_⟩
        have : i + (j + 1) = i + 1 + j := by omega
        rw [this]
        exact hm
    · rintro ⟨j, e2, hj, hm⟩
      cases j with
      | zero =>
        left
        simp only [List.getElem?_cons_zero, Option.some.injEq] at hj
        rw [hj]
        simpa using hm
      | succ j =>
        right
        apply (ih (i + 1)).mpr
        refine ⟨j, e2, by simpa using hj, ?_⟩
        have : i + 1 + j = i + (j + 1) := by omega
        rw [this]
        exact hm

theorem entryDefault_key (i : Nat) (e : PollQuestion) (k v : Str)
    (h : (k, v) ∈ entryDefault i e) : k = qKey i := by
  cases e with
  | Text q => simp [entryDefault] at h; exact h.1
  | Choice q options multiple =>
    simp only [entryDefault] at h
    by_cases hm : multiple
    · simp [hm] at h
    · rw [if_neg hm] at h
      cases options with
      | nil => simp at h
      | cons o0 rest => simp at h; exact h.1

/-! String search primitives used by `Poll::from_markdown` (Rust
`str::split_once`) and `Poll::replace_content` (Rust `str::replace`). -/

/-- Boolean prefix test on character lists. -/
def isPre : Str → Str → Bool
  | [], _ => true
  | _ :: _, [] => false
  | a :: as2, b :: bs => if a = b then isPre as2 bs else false

theorem isPre_iff : ∀ pat s : Str, isPre pat s = true ↔ pat <+: s := by
  intro pat
  induction pat with
  | nil => intro s; simp [isPre, List.nil_prefix]
  | cons a as2 ih =>
    intro s
    cases s with
    | nil =>
      simp only [isPre]
      constructor
      · intro h; cases h
      · rintro ⟨t, ht⟩; cases ht
    | cons b bs =>
      simp only [isPre]
      by_cases hab : a = b
      · rw [if_pos hab, ih bs]
        subst hab
        constructor
        · rintro ⟨t, ht⟩; exact ⟨t, by rw [← ht]; rfl⟩
        · rintro ⟨t, ht⟩
          refine ⟨t, ?_⟩
          have := List.cons.inj ht
          exact this.2
      · rw [if_neg hab]
        constructor
        · intro h; cases h
        · rintro ⟨t, ht⟩
          have := List.cons.inj ht
          exact absurd this.1 hab

theorem isPre_append (pat t : Str) : isPre pat (pat ++ t) = true :=
  (isPre_iff pat (pat ++ t)).mpr ⟨t, rfl⟩

theorem isPre_length {pat s : Str} (h : isPre pat s = true) : pat.length ≤ s.length := by
  rcases (isPre_iff pat s).mp h with ⟨t, ht⟩
  rw [← ht]
  simp

/-- Rust `str::split_once` (poll.rs, lines 126-127): split at the first
occurrence of `pat`, returning the text before and after it. -/
def splitOnce (pat : Str) : Str → Option (Str × Str)
  | [] => if isPre pat [] = true then some ([], ([] : Str).drop pat.length) else none
  | c :: rest =>
    if isPre pat (c :: rest) = true then some ([], (c :: rest).drop pat.length)
    else
      match splitOnce pat rest with
      | some (a, b) => some (c :: a, b)
      | none => none

theorem splitOnce_none_of_no_occurrence {pat : Str} :
    ∀ s : Str, ¬ pat <:+: s → splitOnce pat s = none := by
  intro s
  induction s with
  | nil =>
    intro h
    have : ¬ isPre pat [] = true := by
      intro hp
      have hnil : pat = [] := List.prefix_nil.mp ((isPre_iff pat []).mp hp)
      exact h ⟨[], [], by simp [hnil]⟩
    simp only [splitOnce]
    rw [if_neg this]
  | cons c rest ih =>
    intro h
    have hp : ¬ isPre pat (c :: rest) = true := by
      intro hp
      rcases (isPre_iff pat (c :: rest)).mp hp with ⟨t, ht⟩
      exact h ⟨[], t, by simpa using ht⟩
    have hrest : ¬ pat <:+: rest := by
      intro hinf
      rcases hinf with ⟨u, t, hut⟩
      exact h ⟨c :: u, t, by rw [← hut]; rfl⟩
    simp only [splitOnce]
    rw [if_neg hp, ih hrest]

theorem splitOnce_first {pat : Str} (hpat : pat ≠ []) :
    ∀ a b : Str,
      (∀ aq bq : Str, a ++ pat ++ b = aq ++ pat ++ bq → a.length ≤ aq.length) →
      splitOnce pat (a ++ pat ++ b) = some (a, b) := by
  intro a
  induction a with
  | nil =>
    intro b _
    have hp : isPre pat ([] ++ pat ++ b) = true := by
      simpa using isPre_append pat b
    cases hpb : pat ++ b with
    | nil =>
      cases pat with
      | nil => exact absurd rfl hpat
      | cons x xs => simp at hpb
    | cons c rest =>
      simp only [List.nil_append] at hp ⊢
      rw [hpb] at hp ⊢
      simp only [splitOnce]
      rw [if_pos hp, ← hpb]
      simp
  | cons c a2 ih =>
    intro b hmin
    have hnp : ¬ isPre pat ((c :: a2) ++ pat ++ b) = true := by
      intro hp
      rcases (isPre_iff pat _).mp hp with ⟨t, ht⟩
      have := hmin [] t (by simpa using ht.symm)
      simp at this
    have hmin2 : ∀ aq bq : Str, a2 ++ pat ++ b = aq ++ pat ++ bq → a2.length ≤ aq.length := by
      intro aq bq hab
      have : (c :: a2) ++ pat ++ b = (c :: aq) ++ pat ++ bq := by
        simp only [List.cons_append, List.append_assoc] at hab ⊢
        rw [hab]
      have := hmin (c :: aq) bq this
      simpa using this
    have hstep := ih b hmin2
    simp only [List.cons_append] at hnp ⊢
    simp only [splitOnce]
    rw [if_neg hnp]
    simp only [List.cons_append] at hstep
    rw [hstep]

/-- Rust `str::replace` as used by `Poll::replace_content` (poll.rs,
line 144): repeatedly substitute the leftmost occurrence of `pat` and go on
after it.  `fuel > s.length` makes the fuel irrelevant for a non-empty
`pat`. -/
def replaceAllF (pat rep : Str) : Nat → Str → Str
  | 0, s => s
  | fuel + 1, s =>
    match splitOnce pat s with
    | none => s
    | some (a, b) => a ++ rep ++ replaceAllF pat rep fuel b

/-- Rust `content.replace(pat, rep)`. -/
def replaceAll (pat rep s : Str) : Str := replaceAllF pat rep (s.length + 1) s

theorem splitOnce_eq_append {pat : Str} :
    ∀ s a b : Str, splitOnce pat s = some (a, b) → s = a ++ pat ++ b := by
  intro s
  induction s with
  | nil =>
    intro a b h
    simp only [splitOnce] at h
    by_cases hp : isPre pat [] = true
    · rw [if_pos hp] at h
      cases h
      have : pat = [] := List.prefix_nil.mp ((isPre_iff pat []).mp hp)
      simp [this]
    · rw [if_neg hp] at h
      cases h
  | cons c rest ih =>
    intro a b h
    simp only [splitOnce] at h
    by_cases hp : isPre pat (c :: rest) = true
    · rw [if_pos hp] at h
      cases h
      rcases (isPre_iff pat _).mp hp with ⟨t, ht⟩
      rw [← ht]
      simp
    · rw [if_neg hp] at h
      cases hrest : splitOnce pat rest with
      | none => rw [hrest] at h; cases h
      | some p =>
        rcases p with ⟨a2, b2⟩
        rw [hrest] at h
        simp only [Option.some.injEq, Prod.mk.injEq] at h
        rw [← h.1, ← h.2]
        have := ih a2 b2 hrest
        rw [this]
        simp

theorem replaceAllF_fuel {pat rep : Str} (hpat : pat ≠ []) :
    ∀ f1 : Nat, ∀ f2 : Nat, ∀ s : Str, s.length < f1 → s.length < f2 →
      replaceAllF pat rep f1 s = replaceAllF pat rep f2 s := by
  intro f1
  induction f1 with
  | zero => intro f2 s h1; omega
  | succ f1 ih =>
    intro f2 s h1 h2
    cases f2 with
    | zero => omega
    | succ f2 =>
      simp only [replaceAllF]
      cases hsp : splitOnce pat s with
      | none => rfl
      | some p =>
        rcases p with ⟨a, b⟩
        have hs : s = a ++ pat ++ b := splitOnce_eq_append s a b hsp
        have hblt : b.length < s.length := by
          rw [hs]
          have : 0 < pat.length := List.length_pos.mpr hpat
          simp only [List.length_append]
          omega
        show a ++ rep ++ replaceAllF pat rep f1 b = a ++ rep ++ replaceAllF pat rep f2 b
        rw [ih f2 b (by omega) (by omega)]

theorem replaceAll_of_no_occurrence {pat rep : Str} {s : Str} (h : ¬ pat <:+: s) :
    replaceAll pat rep s = s := by
  rw [replaceAll]
  simp only [replaceAllF]
  rw [splitOnce_none_of_no_occurrence s h]

theorem replaceAll_first {pat rep : Str} (hpat : pat ≠ []) (a b : Str)
    (hmin : ∀ aq bq : Str, a ++ pat ++ b = aq ++ pat ++ bq → a.length ≤ aq.length) :
    replaceAll pat rep (a ++ pat ++ b) = a ++ rep ++ replaceAll pat rep b := by
  rw [replaceAll]
  simp only [replaceAllF]
  rw [splitOnce_first hpat a b hmin]
  show a ++ rep ++ replaceAllF pat rep (a ++ pat ++ b).length b = _
  rw [replaceAll]
  have : 0 < pat.length := List.length_pos.mpr hpat
  rw [replaceAllF_fuel hpat (a ++ pat ++ b).length (b.length + 1) b
    (by simp only [List.length_append]; omega) (by omega)]

/-- Rust `AppError` as visible in poll.rs: only the `Custom(String)`
constructor is used by the poll code. -/
inductive AppError where
  | Custom : Str → AppError
deriving DecidableEq

/-- The opening fence marker of an embedded poll specification. -/
def surveyMarker : Str := ("```survey").data

/-- The closing fence marker. -/
def fenceMarker : Str := ("```").data

/-- `Poll::from_markdown` (poll.rs, lines 125-132).  The TOML deserializer
`Poll::from_toml` (an external crate call) is passed in as `fromToml`. -/
def Poll.from_markdown (fromToml : Str → Except AppError Poll) (content : Str) :
    Option (Except AppError Poll) :=
  match splitOnce surveyMarker content with
  | some (_, toml) =>
    match splitOnce fenceMarker toml with
    | some (toml2, _) => some (fromToml toml2)
    | none => none
  | none => none

/-! The form renderer `Poll::html` (poll.rs, lines 146-219).  Rust indexes
the prior vote with `v.0[i]`, which panics when `i` is out of bounds; the
model returns `none` for a panic and `some fragment` otherwise. -/

/-- The inner closure of the `Text` arm: `match &v.0[i] { Text(t) => Some(t), _ => None }`. -/
def respText : PollResponse → Option Str
  | .Text t => some t
  | _ => none

/-- The option loop of the `Choice` arm (poll.rs, lines 177-209), rendering
options of question `i` starting at option index `o`. -/
def optionsLoop (voted : Option PollResult) (i : Nat) (multiple : Bool) :
    List Str → Nat → Option Str
  | [], _ => some []
  | txt :: rest, o =>
    let checkedOpt : Option Str :=
      if multiple then
        match voted with
        | none => some []
        | some v =>
          match v.responses[i]? with
          | none => none
          | some r =>
            some (match r with
              | .MultipleChoice l => if o ∈ l then ("checked").data else []
              | _ => [])
      else
        match voted with
        | some v =>
          match v.responses[i]? with
          | none => none
          | some r =>
            some (match r with
              | .SingleChoice k => if k = o then ("checked").data else []
              | _ => [])
        | none => some (if o = 0 then ("checked").data else [])
    match checkedOpt with
    | none => none
    | some checked =>
      let item : Str :=
        if multiple then
          ("<li><input type=\"checkbox\" id=q").data ++ natStr i ++ ("_").data ++ natStr o ++
            (" name=q").data ++ natStr i ++ ("_").data ++ natStr o ++ (" ").data ++ checked ++
            (">").data
        else
          ("<li><input type=\"radio\" id=q").data ++ natStr i ++ (" name=q").data ++ natStr i ++
            (" value=\"").data ++ txt ++ ("\" ").data ++ checked ++ (">").data
      let label : Str :=
        ("<label for=q").data ++ natStr i ++ ("_").data ++ natStr o ++ (">&nbsp;").data ++ txt ++
          ("</label></li>").data
      match optionsLoop voted i multiple rest (o + 1) with
      | none => none
      | some restS => some (item ++ label ++ restS)

/-- One iteration of the question loop of `Poll::html` (poll.rs, lines
152-213) for the question at index `i`. -/
def htmlEntry (voted : Option PollResult) (i : Nat) : PollQuestion → Option Str
  | .Text question =>
    let vOpt : Option Str :=
      match voted with
      | none => some []
      | some v =>
        match v.responses[i]? with
        | none => none
        | some r => some ((respText r).getD [])
    match vOpt with
    | none => none
    | some value =>
      some (("<p><b><label for=q").data ++ natStr i ++ (">").data ++ question ++
        ("</label></b></p>").data ++
        ("<p><input type=\"text\" id=q").data ++ natStr i ++ (" name=q").data ++ natStr i ++
        (" value=\"").data ++ value ++ ("\"></p>").data)
  | .Choice question options multiple =>
    match optionsLoop voted i multiple options 0 with
    | none => none
    | some body =>
      some (("<b>").data ++ question ++ ("</b></p><ul>").data ++ body ++ ("</ul>").data)

/-- The question loop of `Poll::html`, starting at question index `i`. -/
def htmlEntries (voted : Option PollResult) : List PollQuestion → Nat → Option Str
  | [], _ => some []
  | e :: rest, i =>
    match htmlEntry voted i e with
    | none => none
    | some s =>
      match htmlEntries voted rest (i + 1) with
      | none => none
      | some t => some (s ++ t)

/-- `Poll::html` (poll.rs, lines 146-219): the rendered form fragment, or
`none` when the positional indexing into the prior vote panics. -/
def Poll.html (p : Poll) (iid pid : Nat) (voted : Option PollResult) : Option Str :=
  match htmlEntries voted p.entries 0 with
  | none => none
  | some body =>
    some (("<h1>").data ++ p.title ++ ("</h1>").data ++
      ("<form action=\"/post/").data ++ natStr iid ++ ("/").data ++ natStr pid ++
      ("/pollvote\" method=\"post\">").data ++ body ++
      ("<input class=\"button is-link is-rounded\" type=\"submit\" value=\"Submit survey\"></form><br><br>").data)

/-- The placeholder token `Poll::HTML_PLACEHOLDER` (poll.rs, line 123). -/
def HTML_PLACEHOLDER : Str := ("__poll_placeholder__").data

/-- `Poll::replace_content` (poll.rs, lines 136-145): render the form and
substitute it for the placeholder in the document content via
`content.replace(...)`. -/
def Poll.replace_content (p : Poll) (content : Str) (iid pid : Nat)
    (voted : Option PollResult) : Option Str :=
  match p.html iid pid voted with
  | none => none
  | some h => some (replaceAll HTML_PLACEHOLDER h content)

/-- Whether rendering question `e` of the form reads the prior vote at its
question index: every `Text` question does, a `Choice` question only inside
its per-option loop, hence only when it has at least one option. -/
def accessesPrior : PollQuestion → Bool
  | .Text _ => true
  | .Choice _ options _ =>
    match options with
    | [] => false
    | _ :: _ => true

/-! The vote store (`post_pollvote`, poll.rs, lines 259-263) and the results
scan (`poll_results`, poll.rs, lines 293-306).  The sled tree is modelled as
a map from byte-string keys to byte-string values with overwrite-on-insert
semantics; the bincode value encoding is abstracted as a function. -/

/-- Modelled from the spec: `u32_to_ivec` (from `db_utils`, not part of the
shown sources) encodes a `u32` as its four fixed-width big-endian bytes
(spec section 3, StorageKey). -/
def u32_to_ivec (n : Nat) : List Nat :=
  [n / 16777216 % 256, n / 65536 % 256, n / 256 % 256, n % 256]

/-- The storage key of a vote: document id bytes followed by voter id bytes
(poll.rs, line 262). -/
def voteKey (pid uid : Nat) : List Nat := u32_to_ivec pid ++ u32_to_ivec uid

/-- The key-value tree holding poll contributions. -/
def Store := List Nat → Option (List Nat)

/-- The store insert done by `post_pollvote` (poll.rs, line 263): write the
encoded response under the vote key, overwriting any previous value. -/
def record_vote (encode : PollResult → List Nat) (store : Store) (pid uid : Nat)
    (r : PollResult) : Store :=
  fun k => if k = voteKey pid uid then some (encode r) else store k

theorem u32_to_ivec_inj {m n : Nat} (hm : m < 4294967296) (hn : n < 4294967296)
    (h : u32_to_ivec m = u32_to_ivec n) : m = n := by
  simp only [u32_to_ivec, List.cons.injEq, and_true] at h
  omega

theorem voteKey_inj {p1 u1 p2 u2 : Nat} (hp1 : p1 < 4294967296) (hu1 : u1 < 4294967296)
    (hp2 : p2 < 4294967296) (hu2 : u2 < 4294967296)
    (h : voteKey p1 u1 = voteKey p2 u2) : p1 = p2 ∧ u1 = u2 := by
  have hlen : (u32_to_ivec p1).length = (u32_to_ivec p2).length := by
    simp [u32_to_ivec]
  rcases List.append_inj h hlen with ⟨h1, h2⟩
  exact ⟨u32_to_ivec_inj hp1 hp2 h1, u32_to_ivec_inj hu1 hu2 h2⟩

/-- The derived `Debug` text of one response, as `format!` with the debug
specifier prints it in the results dump (string escaping inside `Text` is
not reproduced; no claim depends on the dump text). -/
def debugResponse : PollResponse → Str
  | .Text t => ("Text(\"").data ++ t ++ ("\")").data
  | .SingleChoice k => ("SingleChoice(").data ++ natStr k ++ (")").data
  | .MultipleChoice l =>
    ("MultipleChoice([").data ++
      (joinComma (l.map natStr)) ++ ("])").data
where
  joinComma : List Str → Str
    | [] => []
    | [x] => x
    | x :: rest => x ++ (", ").data ++ joinComma rest

/-- The derived `Debug` text of a whole stored record. -/
def debugResult (r : PollResult) : Str :=
  ("PollResult([").data ++ debugResponse.joinComma (r.responses.map debugResponse) ++ ("])").data

/-- The scan loop of `poll_results` (poll.rs, lines 296-306): each scanned
entry is either a store read error or a value; a read error or a bincode
decode failure (`dec` abstracts `bincode::decode_from_slice`) aborts the
whole aggregation with a descriptive error, otherwise the record's debug
dump is appended. -/
def aggregateScan (dec : List Nat → Except Str PollResult) :
    List (Except Str (List Nat)) → Str → Except Str Str
  | [], acc => .ok acc
  | e :: rest, acc =>
    match e with
    | .error err => .error (("Error reading poll response: ").data ++ err)
    | .ok bytes =>
      match dec bytes with
      | .error err => .error (("Error decoding poll response: ").data ++ err)
      | .ok r => aggregateScan dec rest (acc ++ debugResult r ++ ("\n").data)

/-- The aggregation performed by `poll_results` over the scanned entries of
one poll, starting from the empty dump. -/
def poll_results (dec : List Nat → Except Str PollResult)
    (entries : List (Except Str (List Nat))) : Except Str Str :=
  aggregateScan dec entries []

/-- Described by the spec for `replace_content`: substitution of the
fragment for the first occurrence of the placeholder only.  Stated from the
spec's words, for comparison with the implementation. -/
def specReplaceFirst (pat rep s : Str) : Str :=
  match splitOnce pat s with
  | some (a, b) => a ++ rep ++ b
  | none => s

theorem position_lt : ∀ (l : List Str) (v : Str) (k : Nat),
    position l v = some k → k < l.length := by
  intro l
  induction l with
  | nil => intro v k h; cases h
  | cons o rest ih =>
    intro v k h
    simp only [position] at h
    by_cases ho : o = v
    · rw [if_pos ho] at h
      cases h
      simp
    · rw [if_neg ho] at h
      cases hrest : position rest v with
      | none => rw [hrest] at h; cases h
      | some k0 =>
        rw [hrest] at h
        simp only [Option.map_some', Option.some.injEq] at h
        have := ih v k0 hrest
        simp only [List.length_cons]
        omega

theorem position_first : ∀ (l : List Str) (k : Nat) (hk : k < l.length) (v : Str),
    l.get ⟨k, hk⟩ = v → (∀ m (hm : m < l.length), m < k → l.get ⟨m, hm⟩ ≠ v) →
    position l v = some k := by
  intro l
  induction l with
  | nil => intro k hk; simp at hk
  | cons o rest ih =>
    intro k hk v hget hbefore
    cases k with
    | zero =>
      have : o = v := hget
      simp [position, this]
    | succ k =>
      have ho : ¬ o = v := by
        have := hbefore 0 (by simp) (by omega)
        simpa using this
      simp only [position, if_neg ho]
      have hk2 : k < rest.length := by simpa using hk
      have hget2 : rest.get ⟨k, hk2⟩ = v := by simpa using hget
      have hbefore2 : ∀ m (hm : m < rest.length), m < k → rest.get ⟨m, hm⟩ ≠ v := by
        intro m hm hmk
        have := hbefore (m + 1) (by simpa using hm) (by omega)
        simpa using this
      rw [ih k hk2 v hget2 hbefore2]
      rfl

theorem mem_defaultSubmission (p : Poll) (k v : Str)
    (h : (k, v) ∈ defaultSubmission p) :
    ∃ m em, p.entries[m]? = some em ∧ k = qKey m ∧ (k, v) ∈ entryDefault m em := by
  rcases (mem_defaultSubmissionAux k v p.entries 0).mp h with ⟨j, e, hj, hm⟩
  have hm2 : (k, v) ∈ entryDefault j e := by simpa using hm
  exact ⟨j, e, hj, entryDefault_key j e k v hm2, hm2⟩

theorem parseEntry_defaultSubmission (p : Poll) (j : Nat) (e : PollQuestion)
    (hj : p.entries[j]? = some e) :
    parseEntry (collectMap (defaultSubmission p)) j e = defaultResponse e := by
  cases e with
  | Text q =>
    have hlook : collectMap (defaultSubmission p) (qKey j) = some [] := by
      apply collectMap_unique
      · apply (mem_defaultSubmissionAux (qKey j) [] p.entries 0).mpr
        exact ⟨j, .Text q, hj, by simp [entryDefault]⟩
      · intro w hw
        rcases mem_defaultSubmission p (qKey j) w hw with ⟨m, em, hm, hkm, hmem⟩
        have : m = j := qKey_inj hkm.symm
        subst this
        rw [hj] at hm
        cases hm
        simpa [entryDefault] using hmem
    simp [parseEntry, defaultResponse, hlook]
  | Choice q options multiple =>
    cases multiple with
    | true =>
      have hnone : ∀ o : Nat, collectMap (defaultSubmission p) (qKeyO j o) = none := by
        intro o
        apply (collectMap_none_iff (qKeyO j o) (defaultSubmission p)).mpr
        intro pr hpr
        rcases mem_defaultSubmission p pr.1 pr.2 (by simpa using hpr) with ⟨m, em, _, hkm, _⟩
        rw [hkm]
        exact qKey_ne_qKeyO m j o
      have hfil : (List.range options.length).filter
          (fun o => (collectMap (defaultSubmission p) (qKeyO j o)).isSome) = [] := by
        apply List.filter_eq_nil_iff.mpr
        intro o _
        simp [hnone o]
      simp [parseEntry, defaultResponse, hfil]
    | false =>
      cases options with
      | nil =>
        have hnone : collectMap (defaultSubmission p) (qKey j) = none := by
          apply (collectMap_none_iff (qKey j) (defaultSubmission p)).mpr
          intro pr hpr
          rcases mem_defaultSubmission p pr.1 pr.2 (by simpa using hpr) with ⟨m, em, hm, hkm, hmem⟩
          rw [hkm]
          intro hq
          have : m = j := qKey_inj hq
          subst this
          rw [hj] at hm
          cases hm
          simp [entryDefault] at hmem
        simp [parseEntry, defaultResponse, hnone, position]
      | cons o0 rest =>
        have hlook : collectMap (defaultSubmission p) (qKey j) = some o0 := by
          apply collectMap_unique
          · apply (mem_defaultSubmissionAux (qKey j) o0 p.entries 0).mpr
            exact ⟨j, .Choice q (o0 :: rest) false, hj, by simp [entryDefault]⟩
          · intro w hw
            rcases mem_defaultSubmission p (qKey j) w hw with ⟨m, em, hm, hkm, hmem⟩
            have : m = j := qKey_inj hkm.symm
            subst this
            rw [hj] at hm
            cases hm
            simpa [entryDefault] using hmem
        simp [parseEntry, defaultResponse, hlook, position]

/-- C2: decoding the submission consisting exactly of the form renderer's
default selections (no prior response: first option pre-selected for each
single-choice question, no checkbox set, empty text inputs) yields a record
whose single-choice entries are all `SingleChoice 0`, whose multiple-choice
entries are all empty index lists, and whose text entries are all empty. -/
theorem C2_default_submission_roundtrip (p : Poll) :
    PollFormQuery.parse p (collectMap (defaultSubmission p)) =
      .ok ⟨p.entries.map defaultResponse⟩ := by
  rw [PollFormQuery.parse]
  have : parseEntries (collectMap (defaultSubmission p)) p.entries 0 =
      p.entries.map defaultResponse := by
    apply List.ext_getElem?
    intro n
    rw [parseEntries_getElem?]
    cases hn : p.entries[n]? with
    | none => simp [hn]
    | some e =>
      have he := parseEntry_defaultSubmission p n e hn
      simp [hn, he]
  rw [this]

/-- C3 (amended): for a single-choice question at index `i`, decoding takes
the submitted value of field `q{i}` (the empty string when the field is
missing) and stores the first option position whose label equals that value
exactly, or `0` when no label matches; in particular a submitted label with
no earlier duplicate decodes to its own index.  A missing field therefore
behaves like an empty-string value, not like an unconditional fallback
to index 0. -/
theorem C3_single_choice_decoding (p : Poll) (results : Str → Option Str)
    (i : Nat) (q : Str) (options : List Str)
    (hq : p.entries[i]? = some (.Choice q options false)) :
    ∃ r, PollFormQuery.parse p results = .ok r ∧
      r.responses[i]? =
        some (.SingleChoice ((position options ((results (qKey i)).getD [])).getD 0)) ∧
      ∀ (k : Nat) (hk : k < options.length),
        results (qKey i) = some (options.get ⟨k, hk⟩) →
        (∀ (m : Nat) (hm : m < options.length), m < k →
          options.get ⟨m, hm⟩ ≠ options.get ⟨k, hk⟩) →
        r.responses[i]? = some (.SingleChoice k) := by
  refine ⟨⟨parseEntries results p.entries 0⟩, rfl, ?_, ?_⟩
  · show (parseEntries results p.entries 0)[i]? = _
    rw [parseEntries_getElem?]
    simp [hq, parseEntry]
  · intro k hk hres hfirst
    show (parseEntries results p.entries 0)[i]? = _
    rw [parseEntries_getElem?]
    simp only [hq, Option.map_some', Nat.zero_add]
    have hpos : position options ((results (qKey i)).getD []) = some k := by
      rw [hres]
      exact position_first options k hk _ rfl hfirst
    simp [parseEntry, hpos]

/-- C3 counterexample: a schema whose single-choice question has the labels
"x" and "" and a submission with no `q0` field decodes to `SingleChoice 1`
(the empty string matches the label at position 1), not `SingleChoice 0` as
the claim demands for a missing field. -/
theorem C3_missing_field_counterexample :
    PollFormQuery.parse ⟨[], [.Choice (("c").data) [("x").data, []] false]⟩ (fun _ => none) =
        .ok ⟨[.SingleChoice 1]⟩ ∧
      PollResponse.SingleChoice 1 ≠ PollResponse.SingleChoice 0 := by
  constructor
  · rfl
  · decide

/-- C3 witness: a two-option single-choice question with submission
`q0 = "b"` decodes to `SingleChoice 1`. -/
theorem C3_single_choice_decoding_witness :
    ∃ r, PollFormQuery.parse ⟨[], [.Choice [] [("a").data, ("b").data] false]⟩
        (fun k => if k = qKey 0 then some (("b").data) else none) = .ok r ∧
      r.responses[0]? = some (.SingleChoice 1) := by
  rcases C3_single_choice_decoding ⟨[], [.Choice [] [("a").data, ("b").data] false]⟩
      (fun k => if k = qKey 0 then some (("b").data) else none) 0 [] [("a").data, ("b").data]
      (by rfl) with ⟨r, hparse, _, hspec⟩
  refine ⟨r, hparse, ?_⟩
  refine hspec 1 (by decide) (by decide) ?_
  intro m hm h1
  interval_cases m
  show ("a").data ≠ ("b").data
  decide

/-- C4: for a multiple-choice question at index `i` with `n` options,
decoding yields `MultipleChoice L` where `L` is exactly the ascending list
of the option indices `o < n` whose key `q{i}_{o}` is present in the
submission, regardless of that key's value. -/
theorem C4_multiple_choice_decoding (p : Poll) (results : Str → Option Str)
    (i : Nat) (q : Str) (options : List Str)
    (hq : p.entries[i]? = some (.Choice q options true)) :
    ∃ r L, PollFormQuery.parse p results = .ok r ∧
      r.responses[i]? = some (.MultipleChoice L) ∧
      L.Pairwise (fun a b => a < b) ∧
      ∀ o : Nat, o ∈ L ↔ o < options.length ∧ (results (qKeyO i o)).isSome = true := by
  refine ⟨⟨parseEntries results p.entries 0⟩,
    (List.range options.length).filter (fun o => (results (qKeyO i o)).isSome), rfl, ?_, ?_, ?_⟩
  · show (parseEntries results p.entries 0)[i]? = _
    rw [parseEntries_getElem?]
    simp [hq, parseEntry]
  · exact (List.pairwise_lt_range options.length).sublist (List.filter_sublist _)
  · intro o
    rw [List.mem_filter, List.mem_range]

/-- C4 witness: keys `q0_0` and `q0_2` present and `q0_1` absent on a
three-option multiple-choice question give the characterization of the
selected index list. -/
theorem C4_multiple_choice_decoding_witness :
    ∃ r L, PollFormQuery.parse ⟨[], [.Choice [] [[], [], []] true]⟩
        (fun k => if k = qKeyO 0 0 then some [] else if k = qKeyO 0 2 then some [] else none) =
          .ok r ∧
      r.responses[0]? = some (.MultipleChoice L) ∧
      L.Pairwise (fun a b => a < b) ∧
      ∀ o : Nat, o ∈ L ↔ o < ([[], [], []] : List Str).length ∧
        ((fun k => if k = qKeyO 0 0 then some ([] : Str)
          else if k = qKeyO 0 2 then some [] else none) (qKeyO 0 o)).isSome = true :=
  C4_multiple_choice_decoding ⟨[], [.Choice [] [[], [], []] true]⟩
    (fun k => if k = qKeyO 0 0 then some [] else if k = qKeyO 0 2 then some [] else none)
    0 [] [[], [], []] (by rfl)

/-- Positional well-formedness of one decoded response against its
question: matching variant and in-range option indices. -/
def respOk : PollQuestion → PollResponse → Prop
  | .Text _, .Text _ => True
  | .Choice _ options false, .SingleChoice k => k < options.length
  | .Choice _ options true, .MultipleChoice L => ∀ o ∈ L, o < options.length
  | _, _ => False

/-- C6 (amended): the decoder always returns `Ok`, with exactly one
response per schema entry, in order, of the matching variant; every stored
multiple-choice index is in range, and every stored single-choice index is
in range provided each single-choice question has at least one option (the
schema validity invariant).  A single-choice question with an empty option
list stores the out-of-range index 0. -/
theorem C6_decoder_shape (p : Poll) (results : Str → Option Str)
    (hvalid : ∀ q options, PollQuestion.Choice q options false ∈ p.entries → options ≠ []) :
    ∃ r, PollFormQuery.parse p results = .ok r ∧
      r.responses.length = p.entries.length ∧
      ∀ (j : Nat) (e : PollQuestion), p.entries[j]? = some e →
        ∃ resp, r.responses[j]? = some resp ∧ respOk e resp := by
  refine ⟨⟨parseEntries results p.entries 0⟩, rfl, parseEntries_length results p.entries 0, ?_⟩
  intro j e hj
  refine ⟨parseEntry results j e, ?_, ?_⟩
  · show (parseEntries results p.entries 0)[j]? = _
    rw [parseEntries_getElem?]
    simp [hj]
  · cases e with
    | Text q => simp [parseEntry, respOk]
    | Choice q options multiple =>
      cases multiple with
      | true =>
        simp only [parseEntry, if_pos, respOk]
        intro o ho
        have := List.mem_filter.mp ho
        exact List.mem_range.mp this.1
      | false =>
        have hne : options ≠ [] := hvalid q options (List.getElem?_mem hj)
        simp only [parseEntry, respOk, Bool.false_eq_true, if_false]
        cases hpos : position options ((results (qKey j)).getD []) with
        | none =>
          simp only [hpos, Option.getD_none]
          exact List.length_pos.mpr hne
        | some k =>
          simp only [hpos, Option.getD_some]
          exact position_lt options _ k hpos

/-- C6 counterexample: a single-choice question with zero options decodes
to `SingleChoice 0`, an index that is not strictly below the question's
option count, so the decoder does store an out-of-range index. -/
theorem C6_out_of_range_counterexample :
    PollFormQuery.parse ⟨[], [.Choice [] [] false]⟩ (fun _ => none) =
        .ok ⟨[.SingleChoice 0]⟩ ∧
      ¬ (0 < ([] : List Str).length) := by
  constructor
  · rfl
  · decide

/-- C6 witness: a one-question schema satisfying the validity hypothesis. -/
theorem C6_decoder_shape_witness :
    ∃ r, PollFormQuery.parse ⟨[], [.Text []]⟩ (fun _ => none) = .ok r ∧
      r.responses.length = (⟨[], [.Text []]⟩ : Poll).entries.length ∧
      ∀ (j : Nat) (e : PollQuestion), (⟨[], [.Text []]⟩ : Poll).entries[j]? = some e →
        ∃ resp, r.responses[j]? = some resp ∧ respOk e resp :=
  C6_decoder_shape ⟨[], [.Text []]⟩ (fun _ => none)
    (by intro q options h; simp at h)

/-- C5: the definition parser returns `none` when no opening marker is
present, `none` when an opening marker has no closing marker after it, and
otherwise deserializes exactly the block between the first opening marker
and the first closing marker after it, yielding `some` of the
deserializer's verdict (`Err` for a malformed block, `Ok` otherwise). -/
theorem C5_from_markdown_structure (fromToml : Str → Except AppError Poll) (content : Str) :
    (¬ surveyMarker <:+: content → Poll.from_markdown fromToml content = none) ∧
    (∀ a b : Str, content = a ++ surveyMarker ++ b →
      (∀ aq bq : Str, content = aq ++ surveyMarker ++ bq → a.length ≤ aq.length) →
      ((¬ fenceMarker <:+: b → Poll.from_markdown fromToml content = none) ∧
       (∀ c d : Str, b = c ++ fenceMarker ++ d →
         (∀ cq dq : Str, b = cq ++ fenceMarker ++ dq → c.length ≤ cq.length) →
         Poll.from_markdown fromToml content = some (fromToml c)))) := by
  constructor
  · intro h
    simp [Poll.from_markdown, splitOnce_none_of_no_occurrence content h]
  · intro a b hab hmin
    have hsplit : splitOnce surveyMarker content = some (a, b) := by
      subst hab
      exact splitOnce_first (by decide) a b hmin
    constructor
    · intro hnc
      simp [Poll.from_markdown, hsplit, splitOnce_none_of_no_occurrence b hnc]
    · intro c d hcd hmin2
      have hsplit2 : splitOnce fenceMarker b = some (c, d) := by
        subst hcd
        exact splitOnce_first (by decide) c d hmin2
      simp [Poll.from_markdown, hsplit, hsplit2]

/-- C5 witness: a document that is exactly the opening marker followed by a
closing marker parses to `some` of the deserializer applied to the empty
block. -/
theorem C5_from_markdown_structure_witness :
    Poll.from_markdown (fun _ => .error (.Custom [])) (surveyMarker ++ fenceMarker) =
      some (.error (.Custom [])) := by
  have h := (C5_from_markdown_structure (fun _ => .error (.Custom []))
      (surveyMarker ++ fenceMarker)).2 [] fenceMarker (by simp)
      (fun aq bq _ => Nat.zero_le _)
  exact h.2 [] [] (by simp) (fun cq dq _ => Nat.zero_le _)

/-- C7 (amended): substituting the rendered fragment into the content
replaces every occurrence of the placeholder token (the leftmost first,
then all later ones in the remainder), not only the first; content
containing no placeholder is returned unchanged. -/
theorem C7_replace_all_occurrences (p : Poll) (content : Str) (iid pid : Nat)
    (voted : Option PollResult) (out : Str)
    (hout : Poll.replace_content p content iid pid voted = some out) :
    (¬ HTML_PLACEHOLDER <:+: content → out = content) ∧
    (∀ a b : Str, content = a ++ HTML_PLACEHOLDER ++ b →
      (∀ aq bq : Str, content = aq ++ HTML_PLACEHOLDER ++ bq → a.length ≤ aq.length) →
      ∃ h, Poll.html p iid pid voted = some h ∧
        out = a ++ h ++ replaceAll HTML_PLACEHOLDER h b) := by
  cases hhtml : Poll.html p iid pid voted with
  | none => simp [Poll.replace_content, hhtml] at hout
  | some h =>
    simp only [Poll.replace_content, hhtml, Option.some.injEq] at hout
    constructor
    · intro hni
      rw [← hout, replaceAll_of_no_occurrence hni]
    · intro a b hab hmin
      refine ⟨h, rfl, ?_⟩
      have hmin2 : ∀ aq bq : Str, a ++ HTML_PLACEHOLDER ++ b = aq ++ HTML_PLACEHOLDER ++ bq →
          a.length ≤ aq.length := by
        intro aq bq hq
        exact hmin aq bq (by rw [hab, hq])
      rw [← hout, hab, replaceAll_first (by decide) a b hmin2]

set_option maxRecDepth 40000 in
/-- C7 counterexample: on content holding two placeholder tokens the code
replaces both, so its result differs from the spec's first-occurrence-only
substitution. -/
theorem C7_first_only_counterexample :
    Poll.replace_content ⟨[], []⟩ (HTML_PLACEHOLDER ++ 'Z' :: HTML_PLACEHOLDER) 1 2 none ≠
      (Poll.html ⟨[], []⟩ 1 2 none).map
        (fun h => specReplaceFirst HTML_PLACEHOLDER h
          (HTML_PLACEHOLDER ++ 'Z' :: HTML_PLACEHOLDER)) := by
  decide

/-- C7 witness: placeholder-free content passes through unchanged. -/
theorem C7_replace_all_occurrences_witness :
    ((Poll.replace_content ⟨[], []⟩ (("abc").data) 1 2 none).getD []) = ("abc").data := by
  have h := C7_replace_all_occurrences ⟨[], []⟩ (("abc").data) 1 2 none
      ((Poll.replace_content ⟨[], []⟩ (("abc").data) 1 2 none).getD []) (by rfl)
  exact h.1 (by decide)

/-- C1 (amended): the renderer interpolates user-supplied text verbatim,
with no encoding of markup-significant characters: every successfully
rendered fragment begins with the raw title between literal h1 tags. -/
theorem C1_title_interpolated_verbatim (p : Poll) (iid pid : Nat)
    (voted : Option PollResult) (out : Str)
    (hout : Poll.html p iid pid voted = some out) :
    ∃ rest : Str, out = ("<h1>").data ++ p.title ++ ("</h1>").data ++ rest := by
  cases hb : htmlEntries voted p.entries 0 with
  | none => simp [Poll.html, hb] at hout
  | some body =>
    simp only [Poll.html, hb, Option.some.injEq] at hout
    refine ⟨("<form action=\"/post/").data ++ natStr iid ++ ("/").data ++ natStr pid ++
      ("/pollvote\" method=\"post\">").data ++ body ++
      ("<input class=\"button is-link is-rounded\" type=\"submit\" value=\"Submit survey\"></form><br><br>").data, ?_⟩
    rw [← hout]
    simp [List.append_assoc]

/-- C1 counterexample: with the user-supplied title "<script>" the rendered
fragment contains the markup-significant characters of the title raw and
unencoded, starting with the prefix "<h1><script></h1>". -/
theorem C1_raw_markup_counterexample :
    ∃ out, Poll.html ⟨("<script>").data, []⟩ 1 2 none = some out ∧
      ("<h1><script></h1>").data <+: out := by
  refine ⟨(Poll.html ⟨("<script>").data, []⟩ 1 2 none).getD [], by rfl, ?_⟩
  decide

/-- C1 witness: the verbatim-title decomposition at a concrete poll. -/
theorem C1_title_interpolated_verbatim_witness :
    ∃ rest : Str, ((Poll.html ⟨("t").data, []⟩ 1 2 none).getD []) =
      ("<h1>").data ++ (⟨("t").data, []⟩ : Poll).title ++ ("</h1>").data ++ rest :=
  C1_title_interpolated_verbatim ⟨("t").data, []⟩ 1 2 none _ (by rfl)

theorem aggregateScan_error (dec : List Nat → Except Str PollResult) :
    ∀ entries : List (Except Str (List Nat)),
      (∃ e ∈ entries, ∃ bytes msg, e = .ok bytes ∧ dec bytes = .error msg) →
      ∀ acc, ∃ err, aggregateScan dec entries acc = .error err := by
  intro entries
  induction entries with
  | nil =>
    intro hfail
    rcases hfail with ⟨e, he, _⟩
    simp at he
  | cons e rest ih =>
    intro hfail acc
    rcases hfail with ⟨e0, he0, bytes, msg, heq, hdec⟩
    rcases List.mem_cons.mp he0 with h0 | h0
    · subst h0
      subst heq
      simp only [aggregateScan, hdec]
      exact ⟨_, rfl⟩
    · cases e with
      | error err =>
        exact ⟨("Error reading poll response: ").data ++ err, by simp [aggregateScan]⟩
      | ok bytes2 =>
        cases hdec2 : dec bytes2 with
        | error err2 =>
          exact ⟨("Error decoding poll response: ").data ++ err2,
            by simp [aggregateScan, hdec2]⟩
        | ok r =>
          simp only [aggregateScan, hdec2]
          exact ih ⟨e0, h0, bytes, msg, heq, hdec⟩ _

/-- C8: if any scanned entry of a poll holds a value that fails to decode,
the whole aggregation returns an error (no partial tally is produced). -/
theorem C8_aggregation_aborts (dec : List Nat → Except Str PollResult)
    (entries : List (Except Str (List Nat)))
    (hfail : ∃ e ∈ entries, ∃ bytes msg, e = .ok bytes ∧ dec bytes = .error msg) :
    ∃ err, poll_results dec entries = .error err :=
  aggregateScan_error dec entries hfail []

/-- C8 witness: one stored entry whose bytes fail to decode aborts the
aggregation. -/
theorem C8_aggregation_aborts_witness :
    ∃ err, poll_results (fun _ => .error (("bad").data)) [.ok []] = .error err :=
  C8_aggregation_aborts (fun _ => .error (("bad").data)) [.ok []]
    ⟨.ok [], by simp, [], ("bad").data, rfl, rfl⟩

/-- C9: recording a vote writes under the key built from the document and
voter ids; two successive writes for the same pair leave exactly the second
record retrievable, and keys of other (document, voter) pairs are
untouched. -/
theorem C9_last_write_wins (encode : PollResult → List Nat) (store : Store)
    (pid uid pid2 uid2 : Nat) (r1 r2 : PollResult)
    (hpid : pid < 4294967296) (huid : uid < 4294967296)
    (hpid2 : pid2 < 4294967296) (huid2 : uid2 < 4294967296)
    (hne : (pid2, uid2) ≠ (pid, uid)) (_hr : r1 ≠ r2) :
    record_vote encode (record_vote encode store pid uid r1) pid uid r2 (voteKey pid uid) =
        some (encode r2) ∧
      record_vote encode (record_vote encode store pid uid r1) pid uid r2 (voteKey pid2 uid2) =
        store (voteKey pid2 uid2) := by
  constructor
  · simp [record_vote]
  · have hkey : voteKey pid2 uid2 ≠ voteKey pid uid := by
      intro h
      rcases voteKey_inj hpid2 huid2 hpid huid h with ⟨h1, h2⟩
      exact hne (by simp [h1, h2])
    simp [record_vote, hkey]

/-- C9 witness: overwrite and isolation at concrete keys. -/
theorem C9_last_write_wins_witness :
    record_vote (fun _ => []) (record_vote (fun _ => []) (fun _ => none) 1 2 ⟨[]⟩) 1 2
        ⟨[.Text []]⟩ (voteKey 1 2) = some ((fun _ => ([] : List Nat)) (⟨[.Text []]⟩ : PollResult)) ∧
      record_vote (fun _ => []) (record_vote (fun _ => []) (fun _ => none) 1 2 ⟨[]⟩) 1 2
        ⟨[.Text []]⟩ (voteKey 3 4) = (fun _ => (none : Option (List Nat))) (voteKey 3 4) :=
  C9_last_write_wins (fun _ => []) (fun _ => none) 1 2 3 4 ⟨[]⟩ ⟨[.Text []]⟩
    (by decide) (by decide) (by decide) (by decide) (by decide) (by decide)

theorem optionsLoop_isSome (r : PollResult) (i : Nat) (multiple : Bool)
    (hi : i < r.responses.length) :
    ∀ (opts : List Str) (o : Nat), (optionsLoop (some r) i multiple opts o).isSome = true := by
  obtain ⟨x, hx⟩ : ∃ x, r.responses[i]? = some x := ⟨_, List.getElem?_eq_getElem hi⟩
  intro opts
  induction opts with
  | nil => intro o; rfl
  | cons txt rest ih =>
    intro o
    obtain ⟨s, hs⟩ := Option.isSome_iff_exists.mp (ih (o + 1))
    cases multiple with
    | true => simp [optionsLoop, hx, hs]
    | false => simp [optionsLoop, hx, hs]

theorem htmlEntry_isSome (r : PollResult) (i : Nat) (e : PollQuestion)
    (hi : i < r.responses.length) :
    (htmlEntry (some r) i e).isSome = true := by
  obtain ⟨x, hx⟩ : ∃ x, r.responses[i]? = some x := ⟨_, List.getElem?_eq_getElem hi⟩
  cases e with
  | Text q => simp [htmlEntry, hx]
  | Choice q options multiple =>
    obtain ⟨s, hs⟩ := Option.isSome_iff_exists.mp (optionsLoop_isSome r i multiple hi options 0)
    simp [htmlEntry, hs]

theorem htmlEntry_none (r : PollResult) (i : Nat) (e : PollQuestion)
    (hge : r.responses.length ≤ i) (hacc : accessesPrior e = true) :
    htmlEntry (some r) i e = none := by
  have hx : r.responses[i]? = none := by
    rw [List.getElem?_eq_none_iff]
    exact hge
  cases e with
  | Text q => simp [htmlEntry, hx]
  | Choice q options multiple =>
    cases options with
    | nil => simp [accessesPrior] at hacc
    | cons txt rest =>
      cases multiple with
      | true => simp [htmlEntry, optionsLoop, hx]
      | false => simp [htmlEntry, optionsLoop, hx]

theorem htmlEntries_isSome (r : PollResult) :
    ∀ (entries : List PollQuestion) (i : Nat), i + entries.length ≤ r.responses.length →
      (htmlEntries (some r) entries i).isSome = true := by
  intro entries
  induction entries with
  | nil => intro i _; rfl
  | cons e rest ih =>
    intro i hlen
    simp only [List.length_cons] at hlen
    obtain ⟨s1, h1⟩ := Option.isSome_iff_exists.mp (htmlEntry_isSome r i e (by omega))
    obtain ⟨s2, h2⟩ := Option.isSome_iff_exists.mp (ih (i + 1) (by omega))
    simp [htmlEntries, h1, h2]

theorem htmlEntries_none (r : PollResult) :
    ∀ (entries : List PollQuestion) (i : Nat),
      (∀ e ∈ entries, accessesPrior e = true) → i ≤ r.responses.length →
      r.responses.length < i + entries.length →
      htmlEntries (some r) entries i = none := by
  intro entries
  induction entries with
  | nil => intro i _ _ hlt; simp at hlt; omega
  | cons e rest ih =>
    intro i hacc hle hlt
    by_cases hi : i < r.responses.length
    · obtain ⟨s1, h1⟩ := Option.isSome_iff_exists.mp (htmlEntry_isSome r i e hi)
      have hrest := ih (i + 1) (fun e2 he2 => hacc e2 (List.mem_cons_of_mem _ he2))
        (by omega) (by simp at hlt ⊢; omega)
      simp [htmlEntries, h1, hrest]
    · have hge : r.responses.length ≤ i := by omega
      have h1 := htmlEntry_none r i e hge (hacc e (List.mem_cons_self _ _))
      simp [htmlEntries, h1]

/-- C10 (amended): the renderer indexes a supplied prior record positionally
with no bounds check.  Rendering succeeds whenever the prior record has at
least as many entries as the schema has questions; when the record is
shorter and every question actually reads the record (every question is
either a text question or a choice question with at least one option — the
schema validity invariant guarantees this), rendering panics (no fragment
is produced) instead of returning a fragment or an error. -/
theorem C10_prior_record_indexing (p : Poll) (iid pid : Nat) (r : PollResult) :
    (p.entries.length ≤ r.responses.length → ∃ out, Poll.html p iid pid (some r) = some out) ∧
    ((∀ e ∈ p.entries, accessesPrior e = true) → r.responses.length < p.entries.length →
      Poll.html p iid pid (some r) = none) := by
  constructor
  · intro hlen
    have hs : (Poll.html p iid pid (some r)).isSome = true := by
      obtain ⟨body, hb⟩ := Option.isSome_iff_exists.mp
        (htmlEntries_isSome r p.entries 0 (by omega))
      simp [Poll.html, hb]
    exact Option.isSome_iff_exists.mp hs
  · intro hacc hlen
    have hb := htmlEntries_none r p.entries 0 hacc (by omega) (by omega)
    simp [Poll.html, hb]

/-- C10 counterexample: a schema whose only question is a zero-option
single-choice question renders successfully against a prior record that is
shorter than the question list, so a shorter record does not always make
rendering panic. -/
theorem C10_short_record_counterexample :
    ∃ out, Poll.html ⟨[], [.Choice [] [] false]⟩ 1 2 (some ⟨[]⟩) = some out ∧
      (PollResult.mk []).responses.length <
        (⟨[], [.Choice [] [] false]⟩ : Poll).entries.length := by
  refine ⟨(Poll.html ⟨[], [.Choice [] [] false]⟩ 1 2 (some ⟨[]⟩)).getD [], by rfl, by decide⟩

/-- C10 witness: success with a long-enough record and panic with a short
record, on a one-text-question schema. -/
theorem C10_prior_record_indexing_witness :
    (∃ out, Poll.html ⟨[], [.Text []]⟩ 1 2 (some ⟨[.Text []]⟩) = some out) ∧
      Poll.html ⟨[], [.Text []]⟩ 1 2 (some ⟨[]⟩) = none :=
  ⟨(C10_prior_record_indexing ⟨[], [.Text []]⟩ 1 2 ⟨[.Text []]⟩).1 (by decide),
   (C10_prior_record_indexing ⟨[], [.Text []]⟩ 1 2 ⟨[]⟩).2 (by decide) (by decide)⟩
